import Mathlib

/-!
Verification of the srrsync core against its specification.

The definitions below are a shallow embedding of the program:

* `src/src/index.rs` — the SQLite-backed index store.  The database is
  modelled as explicit lists of rows; SQL statements become list operations
  with the same observable semantics (the `blocks` table's composite primary
  key `(file_id, offset)` makes `INSERT` fail on a duplicate, `files` rows
  are looked up by name taking the first matching row, etc.).  Machine
  integers of the program stay within `usize`/`u32` bounds on the inputs we
  consider, so they are modelled as `Nat`; timestamps are compared only for
  equality and are modelled as `Int`.
* `src/src/sync/mod.rs` — the transfer driver `do_stream`, embedded as a
  fuel-indexed loop over abstract `Sink`/`Source` method tables, instrumented
  with a call trace used only in the statements and proofs.

The SHA-1 primitive and the ZPAQ content-defined splitter are external
crates treated as primitives by the specification; the strong hash is a
parameter `H`, and the splitter's output is an arbitrary `ChunkInput`
stream (the byte stream cut at arbitrary content-defined points).
-/

namespace Srrsync

/-- A 160-bit digest, 20 bytes; modelled as a list of byte values. -/
abbrev HashDigest := List Nat

/-- Constant from src/src/index.rs: hard ceiling on block size (32 KiB). -/
def MAX_BLOCK_SIZE : Nat := 32768

/-- Constant from src/src/index.rs: ZPAQ rolling-hash parameter (13 bits, 8 KiB average). -/
def ZPAQ_BITS : Nat := 13

/-- A row of the `files` table: `files(file_id PK, name, modified)`. -/
structure FileRow where
  file_id : Nat
  name : String
  modified : Int
deriving Repr, DecidableEq

/-- A row of the `blocks` table: `blocks(hash, file_id, offset)`, primary key `(file_id, offset)`. -/
structure BlockRow where
  hash : HashDigest
  file_id : Nat
  offset : Nat
deriving Repr, DecidableEq

/-- The index database: the `version`, `files` and `blocks` tables, plus the
rowid counter that backs `last_insert_rowid()` for the `files` table. -/
structure Database where
  version : List (String × String)
  files : List FileRow
  blocks : List BlockRow
  nextId : Nat
deriving Repr, DecidableEq

/-- Failure outcomes of index operations.  `duplicateBlock` is the SQLite
constraint violation on the `blocks` primary key; `panicked msg` models a
Rust `panic!`/`expect` process abort.  The crate's `Error` enum itself is not
among the provided sources, so the remaining kinds are modelled from the
spec's error taxonomy (§7): `schemaMismatch`, `pathEncoding`.
`noTermination` is an artifact of the fuel-indexed embedding of the inner
chunking loop; it is proved unreachable on the runs considered. -/
inductive Failure where
  | duplicateBlock
  | schemaMismatch
  | pathEncoding
  | panicked (msg : String)
  | noTermination
deriving Repr, DecidableEq

/-- A filesystem path as seen by `Path::to_str()`: `toStr` is `some s` when
the path is representable in the store's text encoding (UTF-8), else `none`. -/
structure RPath where
  toStr : Option String
deriving Repr, DecidableEq

/-- The database fresh from `SCHEMA` (src/src/index.rs lines 11-34): one
`version` row `('rs-sync', '0.1')`, no files, no blocks. -/
def schemaDatabase : Database :=
  { version := [("rs-sync", "0.1")], files := [], blocks := [], nextId := 1 }

/-- Embedding of `Index::open` (src/src/index.rs lines 43-51).  The backing
filesystem is a map from path to the stored database.  If the file is absent
the schema is applied; otherwise the store is opened as-is — the code reads
nothing from the `version` table on open. -/
def openIndex (fs : String → Option Database) (filename : String) :
    Except Failure Database :=
  match fs filename with
  | none => .ok schemaDatabase
  | some db => .ok db

/-- Embedding of `IndexTransaction::add_file` (src/src/index.rs lines 111-161).
`name.to_str().expect("encoding")` aborts (panics) when the path is not
representable; the `SELECT ... WHERE name = ?` takes the first matching row;
on a modified mismatch all blocks of the file are deleted and the `modified`
column updated; otherwise the row is reported up to date; a missing row is
inserted with a fresh rowid. -/
def add_file (db : Database) (name : RPath) (modified : Int) :
    Except Failure (Database × Nat × Bool) :=
  match name.toStr with
  | none => .error (.panicked "encoding")
  | some s =>
    match db.files.find? (fun f => f.name == s) with
    | some f =>
      if f.modified != modified then
        .ok ({ db with
                blocks := db.blocks.filter fun b => b.file_id != f.file_id,
                files := db.files.map fun g =>
                  if g.file_id == f.file_id then { g with modified := modified } else g },
              f.file_id, false)
      else
        .ok (db, f.file_id, true)
    | none =>
      .ok ({ db with
              files := db.files ++ [{ file_id := db.nextId, name := s, modified := modified }],
              nextId := db.nextId + 1 },
            db.nextId, false)

/-- Embedding of `IndexTransaction::add_block` (src/src/index.rs lines 207-222):
`INSERT INTO blocks` fails with a constraint violation when `(file_id, offset)`
is already present (the composite primary key). -/
def add_block (db : Database) (hash : HashDigest) (file_id : Nat) (offset : Nat) :
    Except Failure Database :=
  if db.blocks.any fun b => b.file_id == file_id && b.offset == offset then
    .error .duplicateBlock
  else
    .ok { db with blocks := db.blocks ++ [⟨hash, file_id, offset⟩] }

/-- One item of the `cdchunking` chunk stream: a slice of data, or the end of
a content-defined chunk (`ChunkInput::Data` / `ChunkInput::End`). -/
inductive ChunkInput where
  | data (d : List Nat)
  | End
deriving Repr, DecidableEq

/-- The byte stream carried by a chunk-input stream: the concatenation of its
data pieces. -/
def streamData : List ChunkInput → List Nat
  | [] => []
  | .data d :: r => d ++ streamData r
  | .End :: r => streamData r

/-- The inner `while` loop of `IndexTransaction::index_file`
(src/src/index.rs lines 247-264): while the running block together with the
remaining piece reaches `MAX_BLOCK_SIZE`, hash up to the ceiling, record the
block at `start_offset`, and continue with the rest of the piece; finally
absorb what is left into the running hash.  The mutable `Sha1` is modelled by
`pending`, the bytes fed since the last reset (its digest is `H pending`);
the returned list of `(offset, bytes)` pairs is instrumentation recording the
blocks emitted, used only in statements and proofs.  The `fuel` argument
makes the recursion structural; `index_file` supplies `d.length + 1`, which
is proved sufficient whenever `pending.length < MAX_BLOCK_SIZE`. -/
def dataLoop (H : List Nat → HashDigest) (file_id : Nat) :
    Nat → Database → Nat → Nat → List Nat → List Nat →
    Except Failure (Database × Nat × Nat × List Nat × List (Nat × List Nat))
  | 0, _, _, _, _, _ => .error .noTermination
  | fuel + 1, db, start, off, pending, d =>
    if MAX_BLOCK_SIZE ≤ off - start + d.length then
      let e := MAX_BLOCK_SIZE + start - off
      let hashed := pending ++ d.take e
      match add_block db (H hashed) file_id start with
      | .error err => .error err
      | .ok db1 =>
        match dataLoop H file_id fuel db1 (off + e) (off + e) [] (d.drop e) with
        | .error err => .error err
        | .ok (db2, st2, off2, p2, log) => .ok (db2, st2, off2, p2, (start, hashed) :: log)
    else
      .ok (db, start, off + d.length, pending ++ d, [])

/-- The `while let Some(chunk) = chunk_iterator.read()` loop of
`IndexTransaction::index_file` (src/src/index.rs lines 244-279): each data
piece runs the inner loop; each chunk end records the running block at
`start_offset` and resets the hash.  As in `dataLoop`, the `(offset, bytes)`
log is instrumentation. -/
def chunkLoop (H : List Nat → HashDigest) (file_id : Nat) :
    Database → Nat → Nat → List Nat → List ChunkInput →
    Except Failure (Database × List (Nat × List Nat))
  | db, _, _, _, [] => .ok (db, [])
  | db, start, off, pending, .data d :: rest =>
    match dataLoop H file_id (d.length + 1) db start off pending d with
    | .error err => .error err
    | .ok (db1, st1, off1, p1, log1) =>
      match chunkLoop H file_id db1 st1 off1 p1 rest with
      | .error err => .error err
      | .ok (db2, log2) => .ok (db2, log1 ++ log2)
  | db, start, off, pending, .End :: rest =>
    match add_block db (H pending) file_id start with
    | .error err => .error err
    | .ok db1 =>
      match chunkLoop H file_id db1 off off [] rest with
      | .error err => .error err
      | .ok (db2, log2) => .ok (db2, (start, pending) :: log2)

/-- Embedding of `IndexTransaction::index_file` (src/src/index.rs lines
225-282).  The file is presented as its modification time and the chunk
stream the splitter produces from its bytes.  `add_file` is called first; if
the file is up to date the function returns at once, otherwise the chunk
stream is cut into blocks which are inserted into the index.  The second
component of the result is the instrumentation log of emitted blocks. -/
def index_file (H : List Nat → HashDigest) (db : Database) (name : RPath)
    (modified : Int) (stream : List ChunkInput) :
    Except Failure (Database × List (Nat × List Nat)) :=
  match add_file db name modified with
  | .error err => .error err
  | .ok (db1, fid, upToDate) =>
    if upToDate then .ok (db1, [])
    else chunkLoop H fid db1 0 0 [] stream

/-- The block row inserted for an emitted `(offset, bytes)` pair. -/
def mkRow (H : List Nat → HashDigest) (fid : Nat) (p : Nat × List Nat) : BlockRow :=
  ⟨H p.2, fid, p.1⟩

/-- The emitted blocks tile the range from `s` to `e`: each block starts where
the previous ended. -/
def tiles : Nat → List (Nat × List Nat) → Nat → Prop
  | s, [], e => e = s
  | s, p :: rest, e => p.1 = s ∧ tiles (s + p.2.length) rest e

/-! ## The transfer driver (src/src/sync/mod.rs) -/

/-- Events received from the index data (`IndexEvent`, src/src/sync/mod.rs
lines 54-63). -/
inductive IndexEvent where
  | NewFile (path : String) (modified : Int)
  | NewBlock (hash : HashDigest) (size : Nat)
  | End
deriving Repr, DecidableEq

/-- The `Sink` trait (src/src/sync/mod.rs lines 36-51) as a method table over
a sink state type.  Methods are modelled as non-failing; the driver's `?`
operators then merely propagate values. -/
structure SinkOps (σ : Type) where
  new_file : σ → String → Int → σ
  new_block : σ → HashDigest → Nat → σ
  feed_block : σ → HashDigest → List Nat → σ
  next_requested_block : σ → Option HashDigest × σ
  is_missing_blocks : σ → Bool

/-- The `Source` trait (src/src/sync/mod.rs lines 70-79) as a method table
over a source state type. -/
structure SourceOps (τ : Type) where
  next_from_index : τ → Option IndexEvent × τ
  request_block : τ → HashDigest → τ
  get_next_block : τ → Option (HashDigest × List Nat) × τ

/-- One observable call made by the driver on its peers, with its result;
the trace of these calls is instrumentation used only in statements and
proofs. -/
inductive Call where
  | nextRequestedBlock (res : Option HashDigest)
  | requestBlock (h : HashDigest)
  | getNextBlock (res : Option (HashDigest × List Nat))
  | feedBlock (h : HashDigest) (bytes : List Nat)
  | nextFromIndex (res : Option IndexEvent)
  | newFile (path : String) (modified : Int)
  | newBlock (h : HashDigest) (size : Nat)
deriving Repr, DecidableEq

/-- The driver's loop state: the `instructions` flag plus the two peers. -/
structure DriverState (σ τ : Type) where
  instructions : Bool
  sink : σ
  source : τ
deriving DecidableEq

/-- The `while instructions || recv.is_missing_blocks()?` condition of
`do_stream` (src/src/sync/mod.rs line 97). -/
def loopCond (sk : SinkOps σ) (s : DriverState σ τ) : Bool :=
  s.instructions || sk.is_missing_blocks s.sink

/-- One iteration of the `do_stream` loop body (src/src/sync/mod.rs lines
103-124): forward a requested block if any, else deliver a ready block body
if any, else poll the next index instruction — note the third branch carries
no `instructions` guard in the code.  Returns the new state and the calls
made. -/
def doStreamStep (sk : SinkOps σ) (src : SourceOps τ) (s : DriverState σ τ) :
    DriverState σ τ × List Call :=
  match (sk.next_requested_block s.sink) with
  | (some h, sinkA) =>
    ({ s with sink := sinkA, source := src.request_block s.source h },
      [.nextRequestedBlock (some h), .requestBlock h])
  | (none, sinkA) =>
    match (src.get_next_block s.source) with
    | (some (h, blk), sourceA) =>
      ({ s with sink := sk.feed_block sinkA h blk, source := sourceA },
        [.nextRequestedBlock none, .getNextBlock (some (h, blk)), .feedBlock h blk])
    | (none, sourceA) =>
      match (src.next_from_index sourceA) with
      | (some (.NewFile p m), sourceB) =>
        ({ s with sink := sk.new_file sinkA p m, source := sourceB },
          [.nextRequestedBlock none, .getNextBlock none,
            .nextFromIndex (some (.NewFile p m)), .newFile p m])
      | (some (.NewBlock h sz), sourceB) =>
        ({ s with sink := sk.new_block sinkA h sz, source := sourceB },
          [.nextRequestedBlock none, .getNextBlock none,
            .nextFromIndex (some (.NewBlock h sz)), .newBlock h sz])
      | (some .End, sourceB) =>
        ({ instructions := false, sink := sinkA, source := sourceB },
          [.nextRequestedBlock none, .getNextBlock none, .nextFromIndex (some .End)])
      | (none, sourceB) =>
        ({ s with sink := sinkA, source := sourceB },
          [.nextRequestedBlock none, .getNextBlock none, .nextFromIndex none])

/-- Embedding of `do_stream` (src/src/sync/mod.rs lines 95-127) as a
fuel-indexed iteration of `doStreamStep`.  `some (final, trace)` is the `OK`
return of the Rust function, reached when the loop condition turns false
within `fuel` iterations; `none` means the fuel was exhausted while the loop
still ran. -/
def doStream (sk : SinkOps σ) (src : SourceOps τ) :
    Nat → DriverState σ τ → Option (DriverState σ τ × List Call)
  | 0, s => if loopCond sk s then none else some (s, [])
  | fuel + 1, s =>
    if loopCond sk s then
      match doStream sk src fuel (doStreamStep sk src s).1 with
      | none => none
      | some (sf, trf) => some (sf, (doStreamStep sk src s).2 ++ trf)
    else some (s, [])

/-- The digests popped from the sink's request queue, in order. -/
def popsOf (l : List Call) : List HashDigest :=
  l.filterMap fun c => match c with
    | .nextRequestedBlock (some h) => some h
    | _ => none

/-- The digests passed to `source.request_block`, in order. -/
def requestsOf (l : List Call) : List HashDigest :=
  l.filterMap fun c => match c with
    | .requestBlock h => some h
    | _ => none

/-- The block bodies returned by `source.get_next_block`, in order. -/
def getsOf (l : List Call) : List (HashDigest × List Nat)  :=
  l.filterMap fun c => match c with
    | .getNextBlock (some p) => some p
    | _ => none

/-- The block bodies passed to `sink.feed_block`, in order. -/
def feedsOf (l : List Call) : List (HashDigest × List Nat) :=
  l.filterMap fun c => match c with
    | .feedBlock h b => some (h, b)
    | _ => none

/-- The calls made strictly after the `End` index event was returned. -/
def afterEnd : List Call → List Call
  | [] => []
  | .nextFromIndex (some .End) :: r => r
  | _ :: r => afterEnd r

/-- The number of `next_from_index` calls in a trace. -/
def idxCalls (l : List Call) : Nat :=
  (l.filter fun c => match c with | .nextFromIndex _ => true | _ => false).length

/-! ## Model peers

The concrete `Sink`/`Source` implementations of the repository (the `fs` and
network transports) are not among the provided sources; the following pair is
modelled from the spec's capability contracts (§4.5). -/

/-- Modelled from the spec: the state of a Sink (§4.5) — the repository's
concrete `Sink` implementations are not among the provided sources.
`localBlocks` is the sink's own index of already-held digests; `requested` is
its queue of digests to pull; `missing` holds every declared digest neither
locally available nor yet fed; the three logs record the calls received and
are observation only. -/
structure MSink where
  localBlocks : List HashDigest
  requested : List HashDigest
  missing : List HashDigest
  filesLog : List (String × Int)
  blocksLog : List (HashDigest × Nat)
  fedLog : List (HashDigest × List Nat)
deriving Repr

/-- Modelled from the spec: the Sink capability set (§4.5).  `new_block`
enqueues the digest unless it is locally available or already pending (a
digest is requested at most once per session); `feed_block` satisfies every
position awaiting the digest; `next_requested_block` pops the queue;
`is_missing_blocks` reports whether anything is still awaited.  Digest
validation of fed blocks is omitted: the model Source returns the requested
digest's own bytes, so validation always succeeds. -/
def mSinkOps : SinkOps MSink where
  new_file := fun s p m => { s with filesLog := s.filesLog ++ [(p, m)] }
  new_block := fun s h sz =>
    if h ∈ s.localBlocks ∨ h ∈ s.missing then
      { s with blocksLog := s.blocksLog ++ [(h, sz)] }
    else
      { s with blocksLog := s.blocksLog ++ [(h, sz)],
               requested := s.requested ++ [h],
               missing := s.missing ++ [h] }
  feed_block := fun s h b =>
    { s with fedLog := s.fedLog ++ [(h, b)],
             missing := s.missing.filter fun x => x != h }
  next_requested_block := fun s =>
    match s.requested with
    | [] => (none, s)
    | h :: rest => (some h, { s with requested := rest })
  is_missing_blocks := fun s => !s.missing.isEmpty

/-- Modelled from the spec: the state of a Source (§4.5) — the repository's
concrete `Source` implementations are not among the provided sources.
`events` is the remaining finite instruction stream; `pending` the requested
digests not yet served, in request order. -/
structure MSource where
  events : List IndexEvent
  pending : List HashDigest
deriving Repr

/-- Modelled from the spec: the Source capability set (§4.5), with delivery of
requested blocks instantiated as always-ready FIFO service (`body` gives each
digest's bytes) — the strongest form of the spec's assumption that every
requested block is eventually delivered. -/
def mSourceOps (body : HashDigest → List Nat) : SourceOps MSource where
  next_from_index := fun t =>
    match t.events with
    | [] => (none, t)
    | e :: rest => (some e, { t with events := rest })
  request_block := fun t h => { t with pending := t.pending ++ [h] }
  get_next_block := fun t =>
    match t.pending with
    | [] => (none, t)
    | h :: rest => (some (h, body h), { t with pending := rest })

/-- The `NewFile` payloads of an instruction stream, in order. -/
def filesOf : List IndexEvent → List (String × Int)
  | [] => []
  | .NewFile p m :: r => (p, m) :: filesOf r
  | _ :: r => filesOf r

/-- The `NewBlock` payloads of an instruction stream, in order. -/
def blocksOf : List IndexEvent → List (HashDigest × Nat)
  | [] => []
  | .NewBlock h sz :: r => (h, sz) :: blocksOf r
  | _ :: r => blocksOf r

/-! ## Claims about `add_file`, `index_file` fast path, `open`, path encoding -/

/-- C1: `add_file(name, modified)` inside a transaction — if no file row with
this name exists, a new row `(name, modified)` is inserted and
`(new_id, false)` is returned; if a row exists whose `modified` equals the
argument, `(existing_id, true)` is returned and nothing is mutated; if a row
exists with a different `modified`, every block row with that `file_id` is
deleted, the row's `modified` column is updated to the argument, and
`(existing_id, false)` is returned, so no block of the prior version
remains. -/
theorem add_file_spec (db : Database) (s : String) (m : Int) :
    ((∀ f ∈ db.files, f.name ≠ s) →
      add_file db ⟨some s⟩ m =
        .ok ({ db with files := db.files ++ [⟨db.nextId, s, m⟩], nextId := db.nextId + 1 },
              db.nextId, false))
    ∧ (∀ f, db.files.find? (fun g => g.name == s) = some f → f.modified = m →
        add_file db ⟨some s⟩ m = .ok (db, f.file_id, true))
    ∧ (∀ f, db.files.find? (fun g => g.name == s) = some f → f.modified ≠ m →
        ∃ db', add_file db ⟨some s⟩ m = .ok (db', f.file_id, false)
          ∧ db'.blocks = db.blocks.filter (fun b => b.file_id != f.file_id)
          ∧ (∀ b ∈ db'.blocks, b.file_id ≠ f.file_id)
          ∧ { f with modified := m } ∈ db'.files) := by
  refine ⟨?_, ?_, ?_⟩
  · intro hnone
    have hfind : db.files.find? (fun g => g.name == s) = none := by
      rw [List.find?_eq_none]
      intro g hg
      simpa using hnone g hg
    simp [add_file, hfind]
  · intro f hfind hmod
    simp [add_file, hfind, hmod]
  · intro f hfind hmod
    have hne : (f.modified != m) = true := by simpa using hmod
    refine ⟨{ db with
                blocks := db.blocks.filter fun b => b.file_id != f.file_id,
                files := db.files.map fun g =>
                  if g.file_id == f.file_id then { g with modified := m } else g },
            by simp [add_file, hfind, hne], rfl, ?_, ?_⟩
    · intro b hb
      simp only [List.mem_filter, bne_iff_ne, ne_eq] at hb
      exact hb.2
    · have hf : f ∈ db.files := List.mem_of_find?_eq_some hfind
      refine List.mem_map.mpr ⟨f, hf, ?_⟩
      simp

/-- Witness for C1 at concrete databases: a fresh insert, an up-to-date hit,
and a reset on a changed timestamp. -/
theorem add_file_spec_witness :
    (add_file schemaDatabase ⟨some "a"⟩ 5 =
      .ok ({ schemaDatabase with
              files := [⟨1, "a", 5⟩], nextId := 2 }, 1, false))
    ∧ (add_file ⟨[("rs-sync", "0.1")], [⟨1, "a", 5⟩], [⟨[9], 1, 0⟩], 2⟩ ⟨some "a"⟩ 5 =
        .ok (⟨[("rs-sync", "0.1")], [⟨1, "a", 5⟩], [⟨[9], 1, 0⟩], 2⟩, 1, true))
    ∧ (∃ db', add_file ⟨[("rs-sync", "0.1")], [⟨1, "a", 5⟩], [⟨[9], 1, 0⟩], 2⟩ ⟨some "a"⟩ 6 =
          .ok (db', 1, false)
        ∧ db'.blocks = List.filter (fun b => b.file_id != 1) [(⟨[9], 1, 0⟩ : BlockRow)]
        ∧ (∀ b ∈ db'.blocks, b.file_id ≠ 1)
        ∧ ({ file_id := 1, name := "a", modified := 6 } : FileRow) ∈ db'.files) := by
  refine ⟨?_, ?_, ?_⟩
  · exact (add_file_spec schemaDatabase "a" 5).1 (by simp [schemaDatabase])
  · exact (add_file_spec ⟨[("rs-sync", "0.1")], [⟨1, "a", 5⟩], [⟨[9], 1, 0⟩], 2⟩ "a" 5).2.1
      ⟨1, "a", 5⟩ rfl rfl
  · exact (add_file_spec ⟨[("rs-sync", "0.1")], [⟨1, "a", 5⟩], [⟨[9], 1, 0⟩], 2⟩ "a" 6).2.2
      ⟨1, "a", 5⟩ rfl (by decide)

/-- C5: re-indexing a file whose modified timestamp is unchanged since the
last indexing performs no block mutations and leaves the index equal —
`add_file` returns `up_to_date = true` and `index_file` returns immediately,
without chunking and without inserting or deleting any block row. -/
theorem index_file_up_to_date (H : List Nat → HashDigest) (db : Database)
    (s : String) (m : Int) (f : FileRow) (stream : List ChunkInput)
    (hfind : db.files.find? (fun g => g.name == s) = some f)
    (hmod : f.modified = m) :
    add_file db ⟨some s⟩ m = .ok (db, f.file_id, true)
    ∧ index_file H db ⟨some s⟩ m stream = .ok (db, []) := by
  have h1 : add_file db ⟨some s⟩ m = .ok (db, f.file_id, true) := by
    simp [add_file, hfind, hmod]
  exact ⟨h1, by simp [index_file, h1]⟩

/-- Witness for C5: an already-indexed file re-indexed with the same
timestamp leaves the database untouched whatever the chunker yields. -/
theorem index_file_up_to_date_witness :
    add_file ⟨[("rs-sync", "0.1")], [⟨1, "a", 5⟩], [⟨[9], 1, 0⟩], 2⟩ ⟨some "a"⟩ 5 =
      .ok (⟨[("rs-sync", "0.1")], [⟨1, "a", 5⟩], [⟨[9], 1, 0⟩], 2⟩, 1, true)
    ∧ index_file (fun _ => []) ⟨[("rs-sync", "0.1")], [⟨1, "a", 5⟩], [⟨[9], 1, 0⟩], 2⟩
        ⟨some "a"⟩ 5 [.data [1, 2, 3], .End] =
      .ok (⟨[("rs-sync", "0.1")], [⟨1, "a", 5⟩], [⟨[9], 1, 0⟩], 2⟩, []) :=
  index_file_up_to_date (fun _ => []) ⟨[("rs-sync", "0.1")], [⟨1, "a", 5⟩], [⟨[9], 1, 0⟩], 2⟩
    "a" 5 ⟨1, "a", 5⟩ [.data [1, 2, 3], .End] rfl rfl

/-- A store whose version row is not the recognized `('rs-sync', '0.1')`. -/
def badVersionDb : Database :=
  { version := [("other", "9.9")], files := [], blocks := [], nextId := 1 }

/-- A filesystem on which every path holds the unrecognized store. -/
def badFs : String → Option Database := fun _ => some badVersionDb

/-- C7 counterexample: opening an existing store whose version row is not
`('rs-sync', '0.1')` succeeds — `open` never consults the version table and
no `SchemaMismatch` is raised. -/
theorem open_skips_version_check :
    openIndex badFs "idx" = .ok badVersionDb
    ∧ badVersionDb.version ≠ [("rs-sync", "0.1")]
    ∧ openIndex badFs "idx" ≠ .error .schemaMismatch := by
  refine ⟨rfl, by decide, fun hc => ?_⟩
  rw [show openIndex badFs "idx" = .ok badVersionDb from rfl] at hc
  exact Except.noConfusion hc

/-- C7 amended: `open(path)` creates the backing store and applies the schema
— including the `('rs-sync', '0.1')` version row — when the file is absent;
when the file is present it opens the store as-is, without verifying the
version row (no `SchemaMismatch` check is performed on open). -/
theorem openIndex_spec (fs : String → Option Database) (p : String) :
    (fs p = none →
      openIndex fs p = .ok schemaDatabase
        ∧ schemaDatabase.version = [("rs-sync", "0.1")])
    ∧ (∀ db, fs p = some db → openIndex fs p = .ok db) := by
  constructor
  · intro h
    exact ⟨by simp [openIndex, h], rfl⟩
  · intro db h
    simp [openIndex, h]

/-- Witness for C7 amended: creation on an empty filesystem, and a pass-through
open of an existing (even unrecognized) store. -/
theorem openIndex_spec_witness :
    (openIndex (fun _ => none) "idx" = .ok schemaDatabase
      ∧ schemaDatabase.version = [("rs-sync", "0.1")])
    ∧ openIndex badFs "idx" = .ok badVersionDb :=
  ⟨(openIndex_spec (fun _ => none) "idx").1 rfl,
   (openIndex_spec badFs "idx").2 badVersionDb rfl⟩

/-- C8 counterexample: a path that is not representable in the store's text
encoding makes `add_file` abort through `expect("encoding")` — a panic, not a
`PathEncoding` error return. -/
theorem add_file_panics_on_bad_path :
    add_file schemaDatabase ⟨none⟩ 0 = .error (.panicked "encoding")
    ∧ Failure.panicked "encoding" ≠ Failure.pathEncoding := by
  exact ⟨rfl, fun hc => Failure.noConfusion hc⟩

/-- C8 amended: for every path that cannot be represented in the store's text
encoding, `add_file` — and `index_file` through it — aborts the process with
the `expect("encoding")` panic instead of returning a `PathEncoding` error;
nothing is stored. -/
theorem bad_path_panics (H : List Nat → HashDigest) (db : Database) (m : Int)
    (stream : List ChunkInput) (p : RPath) (hp : p.toStr = none) :
    add_file db p m = .error (.panicked "encoding")
    ∧ index_file H db p m stream = .error (.panicked "encoding") := by
  have h1 : add_file db p m = .error (.panicked "encoding") := by
    simp [add_file, hp]
  exact ⟨h1, by simp [index_file, h1]⟩

/-- Witness for C8 amended at a concrete non-representable path. -/
theorem bad_path_panics_witness :
    add_file schemaDatabase ⟨none⟩ 7 = .error (.panicked "encoding")
    ∧ index_file (fun _ => []) schemaDatabase ⟨none⟩ 7 [.End] =
        .error (.panicked "encoding") :=
  bad_path_panics (fun _ => []) schemaDatabase 7 [.End] ⟨none⟩ rfl

/-! ## Structure lemmas about the chunking loop -/

theorem tiles_append {a b : List (Nat × List Nat)} {s m e : Nat}
    (ha : tiles s a m) (hb : tiles m b e) : tiles s (a ++ b) e := by
  induction a generalizing s with
  | nil =>
    have hm : m = s := ha
    subst hm
    exact hb
  | cons p rest ih =>
    obtain ⟨hp, ht⟩ := ha
    exact ⟨hp, ih ht⟩

theorem tiles_sum {log : List (Nat × List Nat)} {s e : Nat} (h : tiles s log e) :
    s + (log.map fun p => p.2.length).sum = e := by
  induction log generalizing s with
  | nil =>
    have he : e = s := h
    simp [he]
  | cons p rest ih =>
    obtain ⟨hp, ht⟩ := h
    have := ih ht
    simp only [List.map_cons, List.sum_cons]
    omega

theorem tiles_lb {log : List (Nat × List Nat)} {s e : Nat} (h : tiles s log e) :
    ∀ p ∈ log, s ≤ p.1 := by
  induction log generalizing s with
  | nil => intro p hp; cases hp
  | cons q rest ih =>
    obtain ⟨hq, ht⟩ := h
    intro p hp
    rcases List.mem_cons.mp hp with rfl | hp'
    · omega
    · have := ih ht p hp'
      omega

theorem tiles_chain {log : List (Nat × List Nat)} {s e : Nat} (h : tiles s log e) :
    List.Chain' (fun p q => q.1 = p.1 + p.2.length) log := by
  induction log generalizing s with
  | nil => exact List.chain'_nil
  | cons p rest ih =>
    obtain ⟨hp, ht⟩ := h
    cases rest with
    | nil => exact List.chain'_singleton p
    | cons q rest2 =>
      have hq := ht.1
      rw [List.chain'_cons]
      exact ⟨by omega, ih ht⟩

theorem tiles_strict {log : List (Nat × List Nat)} {s e : Nat} (h : tiles s log e)
    (hnd : (log.map Prod.fst).Nodup) :
    List.Chain' (· < ·) (log.map Prod.fst) := by
  induction log generalizing s with
  | nil => simp
  | cons p rest ih =>
    obtain ⟨hp, ht⟩ := h
    cases rest with
    | nil => simp
    | cons q rest2 =>
      have hq := ht.1
      rw [List.map_cons, List.map_cons, List.chain'_cons]
      rw [List.map_cons] at hnd
      have h1 := List.nodup_cons.mp hnd
      have hne : p.1 ≠ q.1 := fun hequ => h1.1 (by simp [List.map_cons, hequ])
      refine ⟨by omega, ?_⟩
      simpa using ih ht h1.2

theorem tiles_slice {log : List (Nat × List Nat)} {s e : Nat} {tail L : List Nat}
    (ht : tiles s log e) (hj : (log.map Prod.snd).flatten ++ tail = L) :
    ∀ p ∈ log, (L.drop (p.1 - s)).take p.2.length = p.2 := by
  induction log generalizing s tail L with
  | nil => intro p hp; cases hp
  | cons q rest ih =>
    obtain ⟨hq, ht2⟩ := ht
    intro p hp
    have hL : L = q.2 ++ ((rest.map Prod.snd).flatten ++ tail) := by
      rw [← hj]; simp
    rcases List.mem_cons.mp hp with hpq | hp'
    · subst hpq
      have hz : p.1 - s = 0 := by omega
      rw [hz, List.drop_zero, hL]
      exact List.take_left _ _
    · have hs' := tiles_lb ht2 p hp'
      have ihx := @ih (s + q.2.length) tail ((rest.map Prod.snd).flatten ++ tail) ht2 rfl p hp'
      have harith : p.1 - s = q.2.length + (p.1 - (s + q.2.length)) := by omega
      rw [hL, harith,
        show (q.2 ++ ((rest.map Prod.snd).flatten ++ tail)).drop
            (q.2.length + (p.1 - (s + q.2.length)))
          = ((rest.map Prod.snd).flatten ++ tail).drop (p.1 - (s + q.2.length)) from by
          simp [List.drop_append]]
      exact ihx

theorem add_block_ok {db : Database} {h : HashDigest} {fid off : Nat} {db' : Database}
    (hab : add_block db h fid off = .ok db') :
    db' = { db with blocks := db.blocks ++ [⟨h, fid, off⟩] }
    ∧ ∀ b ∈ db.blocks, ¬(b.file_id = fid ∧ b.offset = off) := by
  unfold add_block at hab
  by_cases hc : db.blocks.any fun b => b.file_id == fid && b.offset == off
  · rw [if_pos hc] at hab; cases hab
  · rw [if_neg hc] at hab
    refine ⟨?_, ?_⟩
    · injection hab with hh
      exact hh.symm
    · intro b hb hcon
      apply hc
      rw [List.any_eq_true]
      exact ⟨b, hb, by simp [hcon.1, hcon.2]⟩

theorem dataLoop_ok {H : List Nat → HashDigest} {fid : Nat} :
    ∀ {fuel : Nat} {db : Database} {start off : Nat} {pending d : List Nat}
      {db' : Database} {st' off' : Nat} {p' : List Nat} {log : List (Nat × List Nat)},
      d.length < fuel →
      off = start + pending.length →
      pending.length < MAX_BLOCK_SIZE →
      dataLoop H fid fuel db start off pending d = .ok (db', st', off', p', log) →
      db'.blocks = db.blocks ++ log.map (mkRow H fid)
      ∧ tiles start log st'
      ∧ off' = off + d.length
      ∧ off' = st' + p'.length
      ∧ p'.length < MAX_BLOCK_SIZE
      ∧ (log.map Prod.snd).flatten ++ p' = pending ++ d
      ∧ (∀ p ∈ log, p.2.length = MAX_BLOCK_SIZE)
      ∧ (∀ p ∈ log, ∀ b ∈ db.blocks, ¬(b.file_id = fid ∧ b.offset = p.1))
      ∧ (log.map Prod.fst).Nodup := by
  intro fuel
  induction fuel with
  | zero =>
    intro db start off pending d db' st' off' p' log hfuel
    omega
  | succ fuel ih =>
    intro db start off pending d db' st' off' p' log hfuel hoff hlt hrun
    simp only [dataLoop] at hrun
    by_cases hcond : MAX_BLOCK_SIZE ≤ off - start + d.length
    · rw [if_pos hcond] at hrun
      have hsub : off - start = pending.length := by omega
      have he : MAX_BLOCK_SIZE + start - off = MAX_BLOCK_SIZE - pending.length := by omega
      have hele : MAX_BLOCK_SIZE + start - off ≤ d.length := by omega
      have hepos : 1 ≤ MAX_BLOCK_SIZE + start - off := by
        have : 0 < MAX_BLOCK_SIZE := by norm_num [MAX_BLOCK_SIZE]
        omega
      cases hab : add_block db (H (pending ++ d.take (MAX_BLOCK_SIZE + start - off))) fid start with
      | error err =>
        simp only [hab] at hrun
        exact Except.noConfusion hrun
      | ok db1 =>
        simp only [hab] at hrun
        cases hrec : dataLoop H fid fuel db1 (off + (MAX_BLOCK_SIZE + start - off))
            (off + (MAX_BLOCK_SIZE + start - off)) [] (d.drop (MAX_BLOCK_SIZE + start - off)) with
        | error err =>
          simp only [hrec] at hrun
          exact Except.noConfusion hrun
        | ok out =>
          obtain ⟨db2, st2, off2, p2, log2⟩ := out
          simp only [hrec] at hrun
          obtain ⟨rfl, rfl, rfl, rfl, rfl⟩ :
              db2 = db' ∧ st2 = st' ∧ off2 = off' ∧ p2 = p' ∧
                (start, pending ++ d.take (MAX_BLOCK_SIZE + start - off)) :: log2 = log := by
            injection hrun with hh
            injection hh with h1 h2
            injection h2 with h3 h4
            injection h4 with h5 h6
            injection h6 with h7 h8
            exact ⟨h1, h3, h5, h7, h8⟩
          obtain ⟨hdb1, hfresh1⟩ := add_block_ok hab
          have hfuel2 : (d.drop (MAX_BLOCK_SIZE + start - off)).length < fuel := by
            rw [List.length_drop]
            omega
          have hoff2 : off + (MAX_BLOCK_SIZE + start - off) =
              off + (MAX_BLOCK_SIZE + start - off) + ([] : List Nat).length := by simp
          have hlt2 : ([] : List Nat).length < MAX_BLOCK_SIZE := by
            norm_num [MAX_BLOCK_SIZE]
          obtain ⟨B1, B2, B3, B4, B5, B6, B7, B8, B9⟩ := ih hfuel2 hoff2 hlt2 hrec
          have hhashlen : (pending ++ d.take (MAX_BLOCK_SIZE + start - off)).length
              = MAX_BLOCK_SIZE := by
            rw [List.length_append, List.length_take]
            omega
          have hrowmem : (⟨H (pending ++ d.take (MAX_BLOCK_SIZE + start - off)), fid, start⟩ :
              BlockRow) ∈ db1.blocks := by
            rw [hdb1]
            simp
          refine ⟨?_, ?_, ?_, B4, B5, ?_, ?_, ?_, ?_⟩
          · rw [B1, hdb1]
            simp [mkRow]
          · refine ⟨rfl, ?_⟩
            have : start + (pending ++ d.take (MAX_BLOCK_SIZE + start - off)).length
                = off + (MAX_BLOCK_SIZE + start - off) := by
              rw [hhashlen]; omega
            rw [this]
            exact B2
          · rw [B3, List.length_drop]
            omega
          · rw [List.map_cons, List.flatten_cons, List.append_assoc, B6]
            simp
          · intro p hp
            rcases List.mem_cons.mp hp with hph | hp'
            · rw [hph]
              exact hhashlen
            · exact B7 p hp'
          · intro p hp b hb
            rcases List.mem_cons.mp hp with hph | hp'
            · rw [hph]
              exact hfresh1 b hb
            · exact B8 p hp' b (by rw [hdb1]; exact List.mem_append_left _ hb)
          · rw [List.map_cons]
            refine List.nodup_cons.mpr ⟨?_, B9⟩
            intro hmem
            obtain ⟨p, hp, hp1⟩ := List.mem_map.mp hmem
            exact B8 p hp _ hrowmem ⟨rfl, hp1.symm⟩
    · rw [if_neg hcond] at hrun
      obtain ⟨rfl, rfl, rfl, rfl, rfl⟩ :
          db = db' ∧ start = st' ∧ off + d.length = off' ∧ pending ++ d = p' ∧ ([] : List (Nat × List Nat)) = log := by
        injection hrun with hh
        injection hh with h1 h2
        injection h2 with h3 h4
        injection h4 with h5 h6
        injection h6 with h7 h8
        exact ⟨h1, h3, h5, h7, h8⟩
      refine ⟨by simp, rfl, rfl, by rw [List.length_append]; omega, ?_, by simp, ?_, ?_, by simp⟩
      · rw [List.length_append]
        omega
      · intro p hp; cases hp
      · intro p hp; cases hp


theorem chunkLoop_ok {H : List Nat → HashDigest} {fid : Nat} :
    ∀ {stream : List ChunkInput} {db : Database} {start off : Nat} {pending : List Nat}
      {db' : Database} {log : List (Nat × List Nat)},
      off = start + pending.length →
      pending.length < MAX_BLOCK_SIZE →
      chunkLoop H fid db start off pending stream = .ok (db', log) →
      ∃ st' p',
        db'.blocks = db.blocks ++ log.map (mkRow H fid)
        ∧ tiles start log st'
        ∧ st' + p'.length = off + (streamData stream).length
        ∧ p'.length < MAX_BLOCK_SIZE
        ∧ (log.map Prod.snd).flatten ++ p' = pending ++ streamData stream
        ∧ (stream.getLast? = some ChunkInput.End → p' = [])
        ∧ (∀ p ∈ log, p.2.length ≤ MAX_BLOCK_SIZE)
        ∧ (∀ p ∈ log, ∀ b ∈ db.blocks, ¬(b.file_id = fid ∧ b.offset = p.1))
        ∧ (log.map Prod.fst).Nodup := by
  intro stream
  induction stream with
  | nil =>
    intro db start off pending db' log hoff hlt hrun
    simp only [chunkLoop] at hrun
    obtain ⟨h1, h2⟩ : db = db' ∧ ([] : List (Nat × List Nat)) = log := by
      injection hrun with hh
      injection hh with ha hb
      exact ⟨ha, hb⟩
    subst h1
    subst h2
    refine ⟨start, pending, by simp, rfl, ?_, hlt, by simp [streamData], ?_, ?_, ?_, by simp⟩
    · simp only [streamData, List.length_nil]
      omega
    · intro hE
      simp at hE
    · intro p hp
      cases hp
    · intro p hp
      cases hp
  | cons x rest ih =>
    cases x with
    | data d =>
      intro db start off pending db' log hoff hlt hrun
      simp only [chunkLoop] at hrun
      cases hdl : dataLoop H fid (d.length + 1) db start off pending d with
      | error err =>
        simp only [hdl] at hrun
        exact Except.noConfusion hrun
      | ok out =>
        obtain ⟨db1, st1, off1, p1, log1⟩ := out
        simp only [hdl] at hrun
        cases hcl : chunkLoop H fid db1 st1 off1 p1 rest with
        | error err =>
          simp only [hcl] at hrun
          exact Except.noConfusion hrun
        | ok out2 =>
          obtain ⟨db2, log2⟩ := out2
          simp only [hcl] at hrun
          obtain ⟨h1, h2⟩ : db2 = db' ∧ log1 ++ log2 = log := by
            injection hrun with hh
            injection hh with ha hb
            exact ⟨ha, hb⟩
          subst h1
          subst h2
          obtain ⟨A1, A2, A3, A4, A5, A6, A7, A8, A9⟩ :=
            dataLoop_ok (Nat.lt_succ_self d.length) hoff hlt hdl
          obtain ⟨st2, p2, B1, B2, B3, B4, B5, B6, B7, B8, B9⟩ := ih A4 A5 hcl
          refine ⟨st2, p2, ?_, tiles_append A2 B2, ?_, B4, ?_, ?_, ?_, ?_, ?_⟩
          · rw [B1, A1]
            simp
          · simp only [streamData, List.length_append]
            omega
          · simp only [streamData, List.map_append, List.flatten_append, List.append_assoc]
            rw [B5, ← List.append_assoc, A6, List.append_assoc]
          · intro hE
            cases rest with
            | nil => simp at hE
            | cons y rest2 =>
              exact B6 (by rwa [List.getLast?_cons_cons] at hE)
          · intro p hp
            rcases List.mem_append.mp hp with hp1 | hp2
            · exact le_of_eq (A7 p hp1)
            · exact B7 p hp2
          · intro p hp b hb
            rcases List.mem_append.mp hp with hp1 | hp2
            · exact A8 p hp1 b hb
            · exact B8 p hp2 b (by rw [A1]; exact List.mem_append_left _ hb)
          · rw [List.map_append, List.nodup_append]
            refine ⟨A9, B9, ?_⟩
            intro a ha1 ha2
            obtain ⟨q, hq, hq1⟩ := List.mem_map.mp ha1
            obtain ⟨p, hp, hp1⟩ := List.mem_map.mp ha2
            have hqmem : mkRow H fid q ∈ db1.blocks := by
              rw [A1]
              exact List.mem_append_right _ (List.mem_map_of_mem _ hq)
            exact B8 p hp _ hqmem ⟨rfl, hq1.trans hp1.symm⟩
    | End =>
      intro db start off pending db' log hoff hlt hrun
      simp only [chunkLoop] at hrun
      cases hab : add_block db (H pending) fid start with
      | error err =>
        simp only [hab] at hrun
        exact Except.noConfusion hrun
      | ok db1 =>
        simp only [hab] at hrun
        cases hcl : chunkLoop H fid db1 off off [] rest with
        | error err =>
          simp only [hcl] at hrun
          exact Except.noConfusion hrun
        | ok out2 =>
          obtain ⟨db2, log2⟩ := out2
          simp only [hcl] at hrun
          obtain ⟨h1, h2⟩ : db2 = db' ∧ (start, pending) :: log2 = log := by
            injection hrun with hh
            injection hh with ha hb
            exact ⟨ha, hb⟩
          subst h1
          subst h2
          obtain ⟨hdb1, hfresh1⟩ := add_block_ok hab
          have hoff2 : off = off + ([] : List Nat).length := by simp
          have hlt2 : ([] : List Nat).length < MAX_BLOCK_SIZE := by
            norm_num [MAX_BLOCK_SIZE]
          obtain ⟨st2, p2, B1, B2, B3, B4, B5, B6, B7, B8, B9⟩ := ih hoff2 hlt2 hcl
          have hrowmem : (⟨H pending, fid, start⟩ : BlockRow) ∈ db1.blocks := by
            rw [hdb1]
            simp
          refine ⟨st2, p2, ?_, ?_, ?_, B4, ?_, ?_, ?_, ?_, ?_⟩
          · rw [B1, hdb1]
            simp [mkRow]
          · exact ⟨rfl, by rw [show start + pending.length = off from hoff.symm]; exact B2⟩
          · simpa [streamData] using B3
          · simp only [streamData, List.map_cons, List.flatten_cons, List.append_assoc]
            rw [B5]
            simp
          · intro hE
            cases rest with
            | nil =>
              have hB5 := B5
              simp [streamData] at hB5
              exact hB5.2
            | cons y rest2 =>
              exact B6 (by rwa [List.getLast?_cons_cons] at hE)
          · intro p hp
            rcases List.mem_cons.mp hp with hph | hp2
            · rw [hph]
              exact le_of_lt hlt
            · exact B7 p hp2
          · intro p hp b hb
            rcases List.mem_cons.mp hp with hph | hp2
            · rw [hph]
              exact hfresh1 b hb
            · exact B8 p hp2 b (by rw [hdb1]; exact List.mem_append_left _ hb)
          · rw [List.map_cons]
            refine List.nodup_cons.mpr ⟨?_, B9⟩
            intro hmem
            obtain ⟨p, hp, hp1⟩ := List.mem_map.mp hmem
            exact B8 p hp _ hrowmem ⟨rfl, hp1.symm⟩

/-- C2: for every file, a successful `index_file` records under the file's
`file_id` a set of blocks whose `(offset, length)` pairs tile `[0, len(f))`
exactly — offsets start at 0, are strictly increasing and contiguous, and
lengths sum to the stream length, so there are no gaps and no overlaps.  The
emission log carries each block's bytes; lengths are its byte counts, and the
recorded rows under `fid` are exactly the logged blocks. -/
theorem index_file_tiling (H : List Nat → HashDigest) (db db1 db' : Database)
    (name : RPath) (m : Int) (fid : Nat) (stream : List ChunkInput)
    (log : List (Nat × List Nat))
    (hadd : add_file db name m = .ok (db1, fid, false))
    (hfresh : ∀ b ∈ db1.blocks, b.file_id ≠ fid)
    (hend : stream = [] ∨ stream.getLast? = some ChunkInput.End)
    (hrun : index_file H db name m stream = .ok (db', log)) :
    db'.blocks.filter (fun b => b.file_id == fid) = log.map (mkRow H fid)
    ∧ (∀ p, log.head? = some p → p.1 = 0)
    ∧ List.Chain' (fun p q => q.1 = p.1 + p.2.length) log
    ∧ List.Chain' (· < ·) (log.map Prod.fst)
    ∧ (log.map fun p => p.2.length).sum = (streamData stream).length := by
  have hcl : chunkLoop H fid db1 0 0 [] stream = .ok (db', log) := by
    unfold index_file at hrun
    simp only [hadd] at hrun
    simpa using hrun
  obtain ⟨st', p', B1, B2, B3, B4, B5, B6, B7, B8, B9⟩ :=
    chunkLoop_ok (by simp) (by norm_num [MAX_BLOCK_SIZE]) hcl
  have hp' : p' = [] := by
    rcases hend with rfl | hE
    · simp only [streamData, List.nil_append] at B5
      exact (List.append_eq_nil.mp B5).2
    · exact B6 hE
  subst hp'
  have hst' : st' = (streamData stream).length := by simpa using B3
  subst hst'
  refine ⟨?_, ?_, tiles_chain B2, tiles_strict B2 B9, ?_⟩
  · rw [B1, List.filter_append]
    have hleft : db1.blocks.filter (fun b => b.file_id == fid) = [] := by
      rw [List.filter_eq_nil_iff]
      intro b hb
      simp [hfresh b hb]
    have hright : (log.map (mkRow H fid)).filter (fun b => b.file_id == fid)
        = log.map (mkRow H fid) := by
      rw [List.filter_eq_self]
      intro b hb
      obtain ⟨p, hp, hp1⟩ := List.mem_map.mp hb
      rw [← hp1]
      simp [mkRow]
    rw [hleft, hright, List.nil_append]
  · intro p hp
    cases log with
    | nil => cases hp
    | cons q rest =>
      cases hp
      exact B2.1
  · have := tiles_sum B2
    omega

/-- Witness for C2: indexing a fresh three-byte file cut as a single chunk
yields one block at offset 0 covering the whole stream. -/
theorem index_file_tiling_witness :
    (Database.blocks ⟨[("rs-sync", "0.1")], [⟨1, "f", 0⟩], [⟨[], 1, 0⟩], 2⟩).filter
        (fun b => b.file_id == 1) = [((0 : Nat), [(1 : Nat), 2, 3])].map (mkRow (fun _ => []) 1)
    ∧ (∀ p, ([((0 : Nat), [(1 : Nat), 2, 3])] : List (Nat × List Nat)).head? = some p → p.1 = 0)
    ∧ List.Chain' (fun p q => q.1 = p.1 + p.2.length) [((0 : Nat), [(1 : Nat), 2, 3])]
    ∧ List.Chain' (· < ·) ([((0 : Nat), [(1 : Nat), 2, 3])].map Prod.fst)
    ∧ ([((0 : Nat), [(1 : Nat), 2, 3])].map fun p => p.2.length).sum
        = (streamData [.data [1, 2, 3], .End]).length :=
  index_file_tiling (fun _ => []) schemaDatabase
    ⟨[("rs-sync", "0.1")], [⟨1, "f", 0⟩], [], 2⟩
    ⟨[("rs-sync", "0.1")], [⟨1, "f", 0⟩], [⟨[], 1, 0⟩], 2⟩
    ⟨some "f"⟩ 0 1 [.data [1, 2, 3], .End] [(0, [1, 2, 3])]
    rfl (by simp) (Or.inr rfl) rfl

/-- C4: for every block recorded by `index_file`, the stored hash is the
strong hash `H` computed over exactly the bytes of the file at
`[offset, offset + length)` — no headers, no length prefix — and each
block's hash depends on those bytes alone (the running hash is reset at
every block boundary, so there is no chaining across blocks). -/
theorem index_file_digests (H : List Nat → HashDigest) (db db1 db' : Database)
    (name : RPath) (m : Int) (fid : Nat) (stream : List ChunkInput)
    (log : List (Nat × List Nat))
    (hadd : add_file db name m = .ok (db1, fid, false))
    (hfresh : ∀ b ∈ db1.blocks, b.file_id ≠ fid)
    (hrun : index_file H db name m stream = .ok (db', log)) :
    ∀ b ∈ db'.blocks, b.file_id = fid →
      ∃ p ∈ log, b.offset = p.1 ∧ b.hash = H p.2
        ∧ p.2 = ((streamData stream).drop p.1).take p.2.length := by
  have hcl : chunkLoop H fid db1 0 0 [] stream = .ok (db', log) := by
    unfold index_file at hrun
    simp only [hadd] at hrun
    simpa using hrun
  obtain ⟨st', p', B1, B2, B3, B4, B5, B6, B7, B8, B9⟩ :=
    chunkLoop_ok (by simp) (by norm_num [MAX_BLOCK_SIZE]) hcl
  intro b hb hbfid
  rw [B1] at hb
  rcases List.mem_append.mp hb with hb1 | hb2
  · exact absurd hbfid (hfresh b hb1)
  · obtain ⟨p, hp, hp1⟩ := List.mem_map.mp hb2
    refine ⟨p, hp, ?_, ?_, ?_⟩
    · rw [← hp1]
      rfl
    · rw [← hp1]
      rfl
    · have hj : (log.map Prod.snd).flatten ++ p' = streamData stream := by
        simpa using B5
      have hsl := tiles_slice B2 hj p hp
      simpa using hsl.symm

/-- Witness for C4: the single recorded block of a fresh three-byte file
hashes exactly the bytes at offset 0. -/
theorem index_file_digests_witness :
    ∃ p ∈ [((0 : Nat), [(1 : Nat), 2, 3])], (⟨[], 1, 0⟩ : BlockRow).offset = p.1
      ∧ (⟨[], 1, 0⟩ : BlockRow).hash = (fun _ => ([] : List Nat)) p.2
      ∧ p.2 = ((streamData [.data [1, 2, 3], .End]).drop p.1).take p.2.length :=
  index_file_digests (fun _ => []) schemaDatabase
    ⟨[("rs-sync", "0.1")], [⟨1, "f", 0⟩], [], 2⟩
    ⟨[("rs-sync", "0.1")], [⟨1, "f", 0⟩], [⟨[], 1, 0⟩], 2⟩
    ⟨some "f"⟩ 0 1 [.data [1, 2, 3], .End] [(0, [1, 2, 3])]
    rfl (by simp) rfl ⟨[], 1, 0⟩ (by simp) rfl

/-! ## Evaluation lemmas for concrete chunk streams -/

theorem dataLoop_nil (H : List Nat → HashDigest) (fid fuel : Nat) (db : Database)
    (start : Nat) :
    dataLoop H fid (fuel + 1) db start start [] [] = .ok (db, start, start, [], []) := by
  simp only [dataLoop]
  rw [if_neg (by simp [MAX_BLOCK_SIZE])]
  simp

theorem dataLoop_cut_ok (H : List Nat → HashDigest) (fid fuel : Nat) (db db1 db2 : Database)
    (start off st2 off2 : Nat) (pending d p2 : List Nat) (log2 : List (Nat × List Nat))
    (hcond : MAX_BLOCK_SIZE ≤ off - start + d.length)
    (hab : add_block db (H (pending ++ d.take (MAX_BLOCK_SIZE + start - off))) fid start
      = .ok db1)
    (hrec : dataLoop H fid fuel db1 (off + (MAX_BLOCK_SIZE + start - off))
        (off + (MAX_BLOCK_SIZE + start - off)) [] (d.drop (MAX_BLOCK_SIZE + start - off))
      = .ok (db2, st2, off2, p2, log2)) :
    dataLoop H fid (fuel + 1) db start off pending d
      = .ok (db2, st2, off2, p2,
          (start, pending ++ d.take (MAX_BLOCK_SIZE + start - off)) :: log2) := by
  rw [dataLoop, if_pos hcond]
  simp only [hab, hrec]

theorem chunkLoop_data_ok (H : List Nat → HashDigest) (fid : Nat) (db db1 db2 : Database)
    (start off st1 off1 : Nat) (pending d p1 : List Nat) (rest : List ChunkInput)
    (log1 log2 : List (Nat × List Nat))
    (hdl : dataLoop H fid (d.length + 1) db start off pending d
      = .ok (db1, st1, off1, p1, log1))
    (hcl : chunkLoop H fid db1 st1 off1 p1 rest = .ok (db2, log2)) :
    chunkLoop H fid db start off pending (.data d :: rest) = .ok (db2, log1 ++ log2) := by
  simp only [chunkLoop, hdl, hcl]

theorem chunkLoop_end_ok (H : List Nat → HashDigest) (fid : Nat) (db db1 db2 : Database)
    (start off : Nat) (pending : List Nat) (rest : List ChunkInput)
    (log2 : List (Nat × List Nat))
    (hab : add_block db (H pending) fid start = .ok db1)
    (hcl : chunkLoop H fid db1 off off [] rest = .ok (db2, log2)) :
    chunkLoop H fid db start off pending (.End :: rest)
      = .ok (db2, (start, pending) :: log2) := by
  simp only [chunkLoop, hab, hcl]

theorem index_file_run (H : List Nat → HashDigest) (db db1 db' : Database) (name : RPath)
    (m : Int) (fid : Nat) (stream : List ChunkInput) (log : List (Nat × List Nat))
    (hadd : add_file db name m = .ok (db1, fid, false))
    (hcl : chunkLoop H fid db1 0 0 [] stream = .ok (db', log)) :
    index_file H db name m stream = .ok (db', log) := by
  unfold index_file
  simp only [hadd]
  rw [if_neg (by simp)]
  exact hcl

/-- C3: counter-evidence (code bug).  A file of exactly
`MAX_BLOCK_SIZE = 32768` bytes chunked as a single chunk — the splitter
signalling no content cut before end-of-stream, a possible output of the
content-defined splitter — makes `index_file` record a zero-length block at
offset 32768 (the hash of the empty byte string) after the max-size block,
violating `0 < length` and the no-empty-trailing-block edge case; were more
data to follow, the next block would reuse offset 32768 and `add_block`
would fail with the `blocks` primary-key violation (`DuplicateBlock`). -/
theorem index_file_zero_length_block :
    index_file (fun _ => []) schemaDatabase ⟨some "f"⟩ 0
        [.data (List.replicate MAX_BLOCK_SIZE 1), .End]
      = .ok (⟨[("rs-sync", "0.1")], [⟨1, "f", 0⟩],
              [⟨[], 1, 0⟩, ⟨[], 1, MAX_BLOCK_SIZE⟩], 2⟩,
             [(0, List.replicate MAX_BLOCK_SIZE 1), (MAX_BLOCK_SIZE, [])])
    ∧ ((MAX_BLOCK_SIZE, ([] : List Nat)) ∈
        [((0 : Nat), List.replicate MAX_BLOCK_SIZE 1), (MAX_BLOCK_SIZE, ([] : List Nat))]
      ∧ ([] : List Nat).length = 0)
    ∧ (streamData [.data (List.replicate MAX_BLOCK_SIZE 1), .End]).length
        = MAX_BLOCK_SIZE := by
  refine ⟨?_, ⟨by simp, rfl⟩, by simp [streamData]⟩
  have hadd : add_file schemaDatabase ⟨some "f"⟩ 0
      = .ok (⟨[("rs-sync", "0.1")], [⟨1, "f", 0⟩], [], 2⟩, 1, false) := rfl
  have hab1 : add_block ⟨[("rs-sync", "0.1")], [⟨1, "f", 0⟩], [], 2⟩
      ((fun _ => ([] : List Nat))
        (([] : List Nat) ++ (List.replicate MAX_BLOCK_SIZE 1).take (MAX_BLOCK_SIZE + 0 - 0)))
      1 0
      = .ok ⟨[("rs-sync", "0.1")], [⟨1, "f", 0⟩], [⟨[], 1, 0⟩], 2⟩ := rfl
  have hrec : dataLoop (fun _ => ([] : List Nat)) 1 MAX_BLOCK_SIZE
      ⟨[("rs-sync", "0.1")], [⟨1, "f", 0⟩], [⟨[], 1, 0⟩], 2⟩
      (0 + (MAX_BLOCK_SIZE + 0 - 0)) (0 + (MAX_BLOCK_SIZE + 0 - 0)) []
      ((List.replicate MAX_BLOCK_SIZE 1).drop (MAX_BLOCK_SIZE + 0 - 0))
      = .ok (⟨[("rs-sync", "0.1")], [⟨1, "f", 0⟩], [⟨[], 1, 0⟩], 2⟩,
             0 + (MAX_BLOCK_SIZE + 0 - 0), 0 + (MAX_BLOCK_SIZE + 0 - 0), [], []) := by
    rw [show (List.replicate MAX_BLOCK_SIZE 1).drop (MAX_BLOCK_SIZE + 0 - 0) = ([] : List Nat)
        from by simp]
    exact dataLoop_nil _ 1 32767 _ _
  have hdl := dataLoop_cut_ok (fun _ => []) 1 MAX_BLOCK_SIZE
    ⟨[("rs-sync", "0.1")], [⟨1, "f", 0⟩], [], 2⟩
    ⟨[("rs-sync", "0.1")], [⟨1, "f", 0⟩], [⟨[], 1, 0⟩], 2⟩
    ⟨[("rs-sync", "0.1")], [⟨1, "f", 0⟩], [⟨[], 1, 0⟩], 2⟩
    0 0 (0 + (MAX_BLOCK_SIZE + 0 - 0)) (0 + (MAX_BLOCK_SIZE + 0 - 0))
    [] (List.replicate MAX_BLOCK_SIZE 1) [] []
    (by simp) hab1 hrec
  simp only [Nat.add_zero, Nat.sub_zero, Nat.zero_add, List.nil_append] at hdl
  rw [show (List.replicate MAX_BLOCK_SIZE 1).take MAX_BLOCK_SIZE
      = List.replicate MAX_BLOCK_SIZE 1 from by simp] at hdl
  have hab2 : add_block ⟨[("rs-sync", "0.1")], [⟨1, "f", 0⟩], [⟨[], 1, 0⟩], 2⟩
      ((fun _ => ([] : List Nat)) ([] : List Nat)) 1 MAX_BLOCK_SIZE
      = .ok ⟨[("rs-sync", "0.1")], [⟨1, "f", 0⟩],
              [⟨[], 1, 0⟩, ⟨[], 1, MAX_BLOCK_SIZE⟩], 2⟩ := by
    rfl
  have hend := chunkLoop_end_ok (fun _ => []) 1
    ⟨[("rs-sync", "0.1")], [⟨1, "f", 0⟩], [⟨[], 1, 0⟩], 2⟩
    ⟨[("rs-sync", "0.1")], [⟨1, "f", 0⟩], [⟨[], 1, 0⟩, ⟨[], 1, MAX_BLOCK_SIZE⟩], 2⟩
    ⟨[("rs-sync", "0.1")], [⟨1, "f", 0⟩], [⟨[], 1, 0⟩, ⟨[], 1, MAX_BLOCK_SIZE⟩], 2⟩
    MAX_BLOCK_SIZE MAX_BLOCK_SIZE [] [] [] hab2 rfl
  have hdata := chunkLoop_data_ok (fun _ => []) 1
    ⟨[("rs-sync", "0.1")], [⟨1, "f", 0⟩], [], 2⟩
    ⟨[("rs-sync", "0.1")], [⟨1, "f", 0⟩], [⟨[], 1, 0⟩], 2⟩
    ⟨[("rs-sync", "0.1")], [⟨1, "f", 0⟩], [⟨[], 1, 0⟩, ⟨[], 1, MAX_BLOCK_SIZE⟩], 2⟩
    0 0 MAX_BLOCK_SIZE MAX_BLOCK_SIZE
    [] (List.replicate MAX_BLOCK_SIZE 1) [] [.End]
    [(0, List.replicate MAX_BLOCK_SIZE 1)] [(MAX_BLOCK_SIZE, [])]
    (by rw [List.length_replicate]; exact hdl) hend
  have hfin := index_file_run (fun _ => []) schemaDatabase
    ⟨[("rs-sync", "0.1")], [⟨1, "f", 0⟩], [], 2⟩
    ⟨[("rs-sync", "0.1")], [⟨1, "f", 0⟩], [⟨[], 1, 0⟩, ⟨[], 1, MAX_BLOCK_SIZE⟩], 2⟩
    ⟨some "f"⟩ 0 1 [.data (List.replicate MAX_BLOCK_SIZE 1), .End]
    ([(0, List.replicate MAX_BLOCK_SIZE 1)] ++ [(MAX_BLOCK_SIZE, [])])
    hadd hdata
  simpa using hfin

/-! ## Claims about the transfer driver -/

theorem doStreamStep_trace {σ τ : Type} (sk : SinkOps σ) (src : SourceOps τ)
    (s : DriverState σ τ) :
    requestsOf (doStreamStep sk src s).2 = popsOf (doStreamStep sk src s).2
    ∧ feedsOf (doStreamStep sk src s).2 = getsOf (doStreamStep sk src s).2 := by
  rcases hpop : sk.next_requested_block s.sink with ⟨r, sinkA⟩
  cases r with
  | some h =>
    simp [doStreamStep, hpop, requestsOf, popsOf, feedsOf, getsOf]
  | none =>
    rcases hget : src.get_next_block s.source with ⟨b, sourceA⟩
    cases b with
    | some p =>
      obtain ⟨h, blk⟩ := p
      simp [doStreamStep, hpop, hget, requestsOf, popsOf, feedsOf, getsOf]
    | none =>
      rcases hidx : src.next_from_index sourceA with ⟨e, sourceB⟩
      cases e with
      | some ev =>
        cases ev <;>
          simp [doStreamStep, hpop, hget, hidx, requestsOf, popsOf, feedsOf, getsOf]
      | none =>
        simp [doStreamStep, hpop, hget, hidx, requestsOf, popsOf, feedsOf, getsOf]

/-- C10: the driver is a faithful pass-through — over any peers and any
completed run of `do_stream`, the sequence of digests passed to
`source.request_block` is exactly the sequence popped from
`sink.next_requested_block`, and the sequence of `(digest, bytes)` pairs fed
to `sink.feed_block` is exactly the sequence returned by
`source.get_next_block`: nothing is invented, dropped, duplicated or
reordered. -/
theorem do_stream_pass_through {σ τ : Type} (sk : SinkOps σ) (src : SourceOps τ)
    (fuel : Nat) (s : DriverState σ τ) (out : DriverState σ τ × List Call)
    (hrun : doStream sk src fuel s = some out) :
    requestsOf out.2 = popsOf out.2 ∧ feedsOf out.2 = getsOf out.2 := by
  induction fuel generalizing s out with
  | zero =>
    simp only [doStream] at hrun
    by_cases hc : loopCond sk s
    · rw [if_pos hc] at hrun
      cases hrun
    · rw [if_neg hc] at hrun
      obtain rfl : (s, ([] : List Call)) = out := by
        injection hrun
      simp [requestsOf, popsOf, feedsOf, getsOf]
  | succ fuel ih =>
    simp only [doStream] at hrun
    by_cases hc : loopCond sk s
    · rw [if_pos hc] at hrun
      cases hnext : doStream sk src fuel (doStreamStep sk src s).1 with
      | none =>
        rw [hnext] at hrun
        cases hrun
      | some out1 =>
        obtain ⟨sf, trf⟩ := out1
        rw [hnext] at hrun
        obtain rfl : (sf, (doStreamStep sk src s).2 ++ trf) = out := by
          injection hrun
        obtain ⟨ih1, ih2⟩ := ih (doStreamStep sk src s).1 (sf, trf) hnext
        obtain ⟨st1, st2⟩ := doStreamStep_trace sk src s
        constructor
        · simp only [requestsOf, popsOf, List.filterMap_append] at *
          rw [st1, ih1]
        · simp only [feedsOf, getsOf, List.filterMap_append] at *
          rw [st2, ih2]
    · rw [if_neg hc] at hrun
      obtain rfl : (s, ([] : List Call)) = out := by
        injection hrun
      simp [requestsOf, popsOf, feedsOf, getsOf]

/-- Concrete sink for driver runs: counts poll calls, emits one request for
digest `[7]` on the third poll, and reports missing until a block is fed. -/
def cSink : SinkOps (Nat × Bool) where
  new_file := fun s _ _ => s
  new_block := fun s _ _ => s
  feed_block := fun s _ _ => (s.1, true)
  next_requested_block := fun s =>
    if s.1 = 2 then (some [7], (s.1 + 1, s.2)) else (none, (s.1 + 1, s.2))
  is_missing_blocks := fun s => !s.2

/-- Concrete source for driver runs: serves the instruction stream, and
delays block delivery by a countdown before serving pending requests. -/
def cSource : SourceOps (List IndexEvent × List HashDigest × Nat) where
  next_from_index := fun t =>
    match t.1 with
    | [] => (none, t)
    | e :: rest => (some e, (rest, t.2))
  request_block := fun t h => (t.1, t.2.1 ++ [h], t.2.2)
  get_next_block := fun t =>
    match t.2.2, t.2.1 with
    | d + 1, _ => (none, (t.1, t.2.1, d))
    | 0, [] => (none, t)
    | 0, h :: rest => (some (h, [1, 2, 3]), (t.1, rest, 0))

/-- C9 counterexample: a concrete completed run of the driver in which,
after the `End` index event has been observed, the driver still calls
`source.next_from_index` (once here) — because the third branch of the loop
body carries no `instructions` guard. -/
theorem do_stream_polls_index_after_end :
    (doStream cSink cSource 4 ⟨true, (0, false), ([IndexEvent.End], [], 2)⟩).map
      (fun out => (idxCalls (afterEnd out.2), out.1.instructions))
    = some (1, false) := by
  rfl

/-- C9 amended: in every iteration of the driver loop,
`source.next_from_index` is called exactly when `sink.next_requested_block`
returned `None` and `source.get_next_block` returned `None` — independently
of whether `End` has been observed; after `End` the driver keeps polling and
relies on the Source contract that such calls return `None`. -/
theorem do_stream_polls_index_iff_idle {σ τ : Type} (sk : SinkOps σ) (src : SourceOps τ)
    (s : DriverState σ τ) :
    (∃ r, Call.nextFromIndex r ∈ (doStreamStep sk src s).2)
    ↔ ((sk.next_requested_block s.sink).1 = none
        ∧ (src.get_next_block s.source).1 = none) := by
  rcases hpop : sk.next_requested_block s.sink with ⟨r, sinkA⟩
  cases r with
  | some h =>
    simp [doStreamStep, hpop]
  | none =>
    rcases hget : src.get_next_block s.source with ⟨b, sourceA⟩
    cases b with
    | some p =>
      obtain ⟨h, blk⟩ := p
      simp [doStreamStep, hpop, hget]
    | none =>
      rcases hidx : src.next_from_index sourceA with ⟨e, sourceB⟩
      cases e with
      | some ev =>
        cases ev <;> simp [doStreamStep, hpop, hget, hidx]
      | none =>
        simp [doStreamStep, hpop, hget, hidx]

/-- Witness for C10: the concrete delayed-source run completes and its trace
satisfies the pass-through equalities. -/
theorem do_stream_pass_through_witness :
    ∃ out, doStream cSink cSource 4 ⟨true, (0, false), ([IndexEvent.End], [], 2)⟩ = some out
      ∧ requestsOf out.2 = popsOf out.2 ∧ feedsOf out.2 = getsOf out.2 := by
  obtain ⟨out, hrun⟩ :
      ∃ out, doStream cSink cSource 4 ⟨true, (0, false), ([IndexEvent.End], [], 2)⟩
        = some out := ⟨_, rfl⟩
  exact ⟨out, hrun, do_stream_pass_through cSink cSource 4 _ out hrun⟩

/-! ## Convergence of the driver over the model peers -/

theorem filesOf_append (a b : List IndexEvent) :
    filesOf (a ++ b) = filesOf a ++ filesOf b := by
  induction a with
  | nil => rfl
  | cons e r ih => cases e <;> simp [filesOf, ih]

theorem blocksOf_append (a b : List IndexEvent) :
    blocksOf (a ++ b) = blocksOf a ++ blocksOf b := by
  induction a with
  | nil => rfl
  | cons e r ih => cases e <;> simp [blocksOf, ih]

/-- In a stream `pre ++ [End]` whose prefix `pre` holds no `End`, the events
following the (unique) `End` are none, and what precedes it is all of `pre`. -/
theorem end_suffix {pre done erest : List IndexEvent}
    (hpre : IndexEvent.End ∉ pre) (hdone : IndexEvent.End ∉ done)
    (heq : pre ++ [IndexEvent.End] = done ++ IndexEvent.End :: erest) :
    erest = [] ∧ done = pre := by
  induction pre generalizing done with
  | nil =>
    cases done with
    | nil =>
      simp only [List.nil_append] at heq
      exact ⟨(List.cons.injEq _ _ _ _).mp heq |>.2.symm, rfl⟩
    | cons d dr =>
      simp only [List.nil_append, List.cons_append] at heq
      obtain ⟨h1, h2⟩ := (List.cons.injEq _ _ _ _).mp heq
      exfalso
      have hlen := congrArg List.length h2
      simp at hlen
      omega
  | cons p pr ih =>
    cases done with
    | nil =>
      simp only [List.cons_append, List.nil_append] at heq
      obtain ⟨h1, h2⟩ := (List.cons.injEq _ _ _ _).mp heq
      exact absurd h1.symm (by simp at hpre; exact hpre.1)
    | cons d dr =>
      simp only [List.cons_append] at heq
      obtain ⟨h1, h2⟩ := (List.cons.injEq _ _ _ _).mp heq
      obtain ⟨he, hd⟩ := ih (by simp at hpre; exact hpre.2)
        (by simp at hdone; exact hdone.2) h2
      exact ⟨he, by rw [hd, h1]⟩

/-- The driver-state measure bounding the number of remaining loop
iterations of `do_stream` over the model peers. -/
def driverMeasure (s : DriverState MSink MSource) : Nat :=
  4 * s.source.events.length + 2 * s.sink.requested.length
    + s.source.pending.length + s.sink.missing.length

/-- The states reachable in a session over the model peers whose original
instruction stream is `pre ++ [End]`: the missing set is duplicate-free and
is exactly the requested-but-unserved digests; the consumed prefix `done`
determines the sink's logs; `End` is consumed exactly when `instructions`
has been cleared, after which no events remain. -/
def SessionInv (pre : List IndexEvent) (s : DriverState MSink MSource) : Prop :=
  s.sink.missing.Nodup
  ∧ s.sink.missing.Perm (s.sink.requested ++ s.source.pending)
  ∧ ∃ done, pre ++ [IndexEvent.End] = done ++ s.source.events
      ∧ (s.instructions = true → IndexEvent.End ∉ done)
      ∧ (s.instructions = false → s.source.events = [])
      ∧ s.sink.filesLog = filesOf done
      ∧ s.sink.blocksLog = blocksOf done

theorem sessionInv_step (pre : List IndexEvent) (body : HashDigest → List Nat)
    (hpre : IndexEvent.End ∉ pre) (s : DriverState MSink MSource)
    (hinv : SessionInv pre s) (hcond : loopCond mSinkOps s = true) :
    SessionInv pre (doStreamStep mSinkOps (mSourceOps body) s).1
    ∧ driverMeasure (doStreamStep mSinkOps (mSourceOps body) s).1 < driverMeasure s := by
  obtain ⟨hnd, hperm, done, hsplit, hdone, hfin, hf, hb⟩ := hinv
  cases hreq : s.sink.requested with
  | cons h rest =>
    have hstep : (doStreamStep mSinkOps (mSourceOps body) s).1
        = { s with sink := { s.sink with requested := rest },
                   source := { s.source with pending := s.source.pending ++ [h] } } := by
      simp [doStreamStep, mSinkOps, mSourceOps, hreq]
    rw [hstep]
    refine ⟨⟨hnd, ?_, done, hsplit, hdone, hfin, hf, hb⟩, ?_⟩
    · show s.sink.missing.Perm (rest ++ (s.source.pending ++ [h]))
      have hp0 : s.sink.missing.Perm ((h :: rest) ++ s.source.pending) := by
        rw [← hreq]
        exact hperm
      refine hp0.trans ?_
      have hc : ([h] ++ (rest ++ s.source.pending)).Perm ((rest ++ s.source.pending) ++ [h]) :=
        @List.perm_append_comm _ [h] (rest ++ s.source.pending)
      simpa using hc
    · show driverMeasure _ < driverMeasure s
      simp [driverMeasure, hreq]
      omega
  | nil =>
    cases hpend : s.source.pending with
    | cons h prest =>
      have hstep : (doStreamStep mSinkOps (mSourceOps body) s).1
          = { s with
                sink := { s.sink with
                            fedLog := s.sink.fedLog ++ [(h, body h)],
                            missing := s.sink.missing.filter (fun x => x != h) },
                source := { s.source with pending := prest } } := by
        simp [doStreamStep, mSinkOps, mSourceOps, hreq, hpend]
      have hph : s.sink.missing.Perm (h :: prest) := by
        rw [hreq, hpend] at hperm
        simpa using hperm
      have hnp : h ∉ prest := (List.nodup_cons.mp (hph.nodup hnd)).1
      have hfil : (h :: prest).filter (fun x => x != h) = prest := by
        rw [List.filter_cons]
        simp only [bne_self_eq_false, Bool.false_eq_true, if_false]
        rw [List.filter_eq_self]
        intro x hx
        exact bne_iff_ne.mpr fun he => hnp (he ▸ hx)
      have hpf : (s.sink.missing.filter (fun x => x != h)).Perm prest := by
        have := hph.filter (fun x => x != h)
        rwa [hfil] at this
      rw [hstep]
      refine ⟨⟨?_, ?_, done, hsplit, hdone, hfin, hf, hb⟩, ?_⟩
      · show (s.sink.missing.filter (fun x => x != h)).Nodup
        exact hnd.filter _
      · show (s.sink.missing.filter (fun x => x != h)).Perm (s.sink.requested ++ prest)
        rw [hreq]
        simpa using hpf
      · show driverMeasure _ < driverMeasure s
        have hl1 : s.sink.missing.length = prest.length + 1 := by
          simpa using hph.length_eq
        have hl2 : (s.sink.missing.filter (fun x => x != h)).length = prest.length :=
          hpf.length_eq
        simp [driverMeasure, hpend, hl2]
        omega
    | nil =>
      have hmiss0 : s.sink.missing = [] := by
        rw [hreq, hpend] at hperm
        exact hperm.eq_nil
      have hins : s.instructions = true := by
        simp [loopCond, hmiss0, mSinkOps] at hcond
        exact hcond
      have hdone' : IndexEvent.End ∉ done := hdone hins
      cases hev : s.source.events with
      | nil =>
        exfalso
        rw [hev, List.append_nil] at hsplit
        apply hdone'
        rw [← hsplit]
        simp
      | cons e erest =>
        rw [hev] at hsplit
        cases e with
        | NewFile p m =>
          have hstep : (doStreamStep mSinkOps (mSourceOps body) s).1
              = { s with
                    sink := { s.sink with filesLog := s.sink.filesLog ++ [(p, m)] },
                    source := { s.source with events := erest } } := by
            simp [doStreamStep, mSinkOps, mSourceOps, hreq, hpend, hev]
          rw [hstep]
          refine ⟨⟨hnd, hperm, done ++ [.NewFile p m], ?_, ?_, ?_, ?_, ?_⟩, ?_⟩
          · show pre ++ [IndexEvent.End] = (done ++ [.NewFile p m]) ++ erest
            rw [hsplit, List.append_assoc]
            rfl
          · intro _
            simp only [List.mem_append, List.mem_singleton]
            rintro (hx | hx)
            · exact hdone' hx
            · cases hx
          · intro hx
            exact absurd (hins.symm.trans hx) (by simp)
          · show s.sink.filesLog ++ [(p, m)] = filesOf (done ++ [.NewFile p m])
            rw [filesOf_append, hf]
            rfl
          · show s.sink.blocksLog = blocksOf (done ++ [.NewFile p m])
            rw [blocksOf_append, hb]
            simp [blocksOf]
          · show driverMeasure _ < driverMeasure s
            simp [driverMeasure, hev, hreq, hpend, hmiss0]
        | NewBlock h sz =>
          by_cases hg : h ∈ s.sink.localBlocks ∨ h ∈ s.sink.missing
          · have hstep : (doStreamStep mSinkOps (mSourceOps body) s).1
                = { s with
                      sink := { s.sink with blocksLog := s.sink.blocksLog ++ [(h, sz)] },
                      source := { s.source with events := erest } } := by
              simp [doStreamStep, mSinkOps, mSourceOps, hreq, hpend, hev, hg]
            rw [hstep]
            refine ⟨⟨hnd, hperm, done ++ [.NewBlock h sz], ?_, ?_, ?_, ?_, ?_⟩, ?_⟩
            · show pre ++ [IndexEvent.End] = (done ++ [.NewBlock h sz]) ++ erest
              rw [hsplit, List.append_assoc]
              rfl
            · intro _
              simp only [List.mem_append, List.mem_singleton]
              rintro (hx | hx)
              · exact hdone' hx
              · cases hx
            · intro hx
              exact absurd (hins.symm.trans hx) (by simp)
            · show s.sink.filesLog = filesOf (done ++ [.NewBlock h sz])
              rw [filesOf_append, hf]
              simp [filesOf]
            · show s.sink.blocksLog ++ [(h, sz)] = blocksOf (done ++ [.NewBlock h sz])
              rw [blocksOf_append, hb]
              rfl
            · show driverMeasure _ < driverMeasure s
              simp [driverMeasure, hev, hreq, hpend, hmiss0]
          · have hstep : (doStreamStep mSinkOps (mSourceOps body) s).1
                = { s with
                      sink := { s.sink with
                                  blocksLog := s.sink.blocksLog ++ [(h, sz)],
                                  requested := s.sink.requested ++ [h],
                                  missing := s.sink.missing ++ [h] },
                      source := { s.source with events := erest } } := by
              simp [doStreamStep, mSinkOps, mSourceOps, hreq, hpend, hev, hg]
            rw [hstep]
            refine ⟨⟨?_, ?_, done ++ [.NewBlock h sz], ?_, ?_, ?_, ?_, ?_⟩, ?_⟩
            · show (s.sink.missing ++ [h]).Nodup
              rw [hmiss0]
              simp
            · show (s.sink.missing ++ [h]).Perm ((s.sink.requested ++ [h]) ++ s.source.pending)
              rw [hmiss0, hreq, hpend]
              simp
            · show pre ++ [IndexEvent.End] = (done ++ [.NewBlock h sz]) ++ erest
              rw [hsplit, List.append_assoc]
              rfl
            · intro _
              simp only [List.mem_append, List.mem_singleton]
              rintro (hx | hx)
              · exact hdone' hx
              · cases hx
            · intro hx
              exact absurd (hins.symm.trans hx) (by simp)
            · show s.sink.filesLog = filesOf (done ++ [.NewBlock h sz])
              rw [filesOf_append, hf]
              simp [filesOf]
            · show s.sink.blocksLog ++ [(h, sz)] = blocksOf (done ++ [.NewBlock h sz])
              rw [blocksOf_append, hb]
              rfl
            · show driverMeasure _ < driverMeasure s
              simp [driverMeasure, hev, hreq, hpend, hmiss0]
              omega
        | End =>
          obtain ⟨hrest, hdpre⟩ := end_suffix hpre hdone' hsplit
          subst hrest
          have hstep : (doStreamStep mSinkOps (mSourceOps body) s).1
              = { instructions := false, sink := s.sink,
                  source := { s.source with events := [] } } := by
            simp [doStreamStep, mSinkOps, mSourceOps, hreq, hpend, hev]
          rw [hstep]
          refine ⟨⟨hnd, hperm, done ++ [.End], ?_, ?_, ?_, ?_, ?_⟩, ?_⟩
          · show pre ++ [IndexEvent.End] = (done ++ [.End]) ++ []
            rw [hsplit, List.append_nil]
          · intro hx
            cases hx
          · intro _
            rfl
          · show s.sink.filesLog = filesOf (done ++ [.End])
            rw [filesOf_append, hf]
            simp [filesOf]
          · show s.sink.blocksLog = blocksOf (done ++ [.End])
            rw [blocksOf_append, hb]
            simp [blocksOf]
          · show driverMeasure _ < driverMeasure s
            simp [driverMeasure, hev, hreq, hpend, hmiss0]

theorem doStream_terminates (pre : List IndexEvent) (body : HashDigest → List Nat)
    (hpre : IndexEvent.End ∉ pre) :
    ∀ (n : Nat) (s : DriverState MSink MSource), SessionInv pre s → driverMeasure s ≤ n →
      ∃ out, doStream mSinkOps (mSourceOps body) n s = some out
        ∧ SessionInv pre out.1 ∧ loopCond mSinkOps out.1 = false := by
  intro n
  induction n with
  | zero =>
    intro s hinv hm
    by_cases hc : loopCond mSinkOps s = true
    · exfalso
      have := (sessionInv_step pre body hpre s hinv hc).2
      omega
    · have hc' : loopCond mSinkOps s = false := by simpa using hc
      exact ⟨(s, []), by simp [doStream, hc'], hinv, hc'⟩
  | succ n ih =>
    intro s hinv hm
    by_cases hc : loopCond mSinkOps s = true
    · obtain ⟨hinv1, hdec⟩ := sessionInv_step pre body hpre s hinv hc
      obtain ⟨out, hout, hinvf, hcf⟩ :=
        ih (doStreamStep mSinkOps (mSourceOps body) s).1 hinv1 (by omega)
      obtain ⟨o1, o2⟩ := out
      refine ⟨(o1, (doStreamStep mSinkOps (mSourceOps body) s).2 ++ o2), ?_, hinvf, hcf⟩
      simp [doStream, hc, hout]
    · have hc' : loopCond mSinkOps s = false := by simpa using hc
      exact ⟨(s, []), by simp [doStream, hc'], hinv, hc'⟩

/-- C6: session convergence over the model peers.  Given any finite
instruction stream `pre` terminated by a single `End`, with the Source
delivering every requested block, the driver returns `OK` within finitely
many iterations — terminating exactly when `End` has been dispatched
(`instructions` cleared) and the Sink reports no missing blocks — and the
Sink has received every `NewFile` and every `NewBlock` of the stream exactly
once, in order. -/
theorem do_stream_converges (pre : List IndexEvent) (body : HashDigest → List Nat)
    (localBlocks : List HashDigest) (hpre : IndexEvent.End ∉ pre) :
    ∃ fuel final tr,
      doStream mSinkOps (mSourceOps body) fuel
        ⟨true, ⟨localBlocks, [], [], [], [], []⟩, ⟨pre ++ [IndexEvent.End], []⟩⟩
        = some (final, tr)
      ∧ final.instructions = false
      ∧ final.sink.missing = []
      ∧ mSinkOps.is_missing_blocks final.sink = false
      ∧ final.sink.filesLog = filesOf pre
      ∧ final.sink.blocksLog = blocksOf pre := by
  have hinv0 : SessionInv pre
      ⟨true, ⟨localBlocks, [], [], [], [], []⟩, ⟨pre ++ [IndexEvent.End], []⟩⟩ := by
    refine ⟨List.nodup_nil, by simp, [], by simp, ?_, ?_, rfl, rfl⟩
    · intro _
      simp
    · intro hx
      cases hx
  obtain ⟨out, hout, hinvf, hcf⟩ := doStream_terminates pre body hpre
    (driverMeasure ⟨true, ⟨localBlocks, [], [], [], [], []⟩, ⟨pre ++ [IndexEvent.End], []⟩⟩)
    _ hinv0 le_rfl
  obtain ⟨hnd, hperm, done, hsplit, hdone, hfin, hf, hb⟩ := hinvf
  have hcf2 : out.1.instructions = false ∧ out.1.sink.missing = [] := by
    simpa [loopCond, mSinkOps, List.isEmpty_iff] using hcf
  have hdoneeq : done = pre ++ [IndexEvent.End] := by
    rw [hfin hcf2.1, List.append_nil] at hsplit
    exact hsplit.symm
  refine ⟨_, out.1, out.2, by rw [← hout], hcf2.1, hcf2.2, ?_, ?_, ?_⟩
  · simp [mSinkOps, hcf2.2]
  · rw [hf, hdoneeq, filesOf_append]
    simp [filesOf]
  · rw [hb, hdoneeq, blocksOf_append]
    simp [blocksOf]

/-- Witness for C6: a two-event stream (one file, one block) converges with
both events dispatched exactly once. -/
theorem do_stream_converges_witness :
    ∃ fuel final tr,
      doStream mSinkOps (mSourceOps fun _ => [0]) fuel
        ⟨true, ⟨[], [], [], [], [], []⟩,
          ⟨[IndexEvent.NewFile "a" 1, IndexEvent.NewBlock [5] 3] ++ [IndexEvent.End], []⟩⟩
        = some (final, tr)
      ∧ final.instructions = false
      ∧ final.sink.missing = []
      ∧ mSinkOps.is_missing_blocks final.sink = false
      ∧ final.sink.filesLog = filesOf [IndexEvent.NewFile "a" 1, IndexEvent.NewBlock [5] 3]
      ∧ final.sink.blocksLog = blocksOf [IndexEvent.NewFile "a" 1, IndexEvent.NewBlock [5] 3] :=
  do_stream_converges [IndexEvent.NewFile "a" 1, IndexEvent.NewBlock [5] 3]
    (fun _ => [0]) [] (by simp)

end Srrsync
